import Mathlib

/-
Verification of the BPE tokenizer core (BPE_Tokenizer/BPE_tokenizer.py):
a shallow embedding of the training functions (get_vocab_from_corpus,
get_pair_frequencies, merge_pair, train_bpe) and of the tokenizer model
(encode, decode), together with theorems settling the specified properties.

Modelling conventions:
- Python dicts / collections.Counter are modelled as insertion-ordered
  association lists; key update keeps the original position, a fresh key
  is appended at the end, exactly as in CPython.
- Symbols are Lean Strings; a WordShape is a List String; a vocabulary is
  a List (List String × Nat).
- Token ids are Int (Python ints); a Python value that may be None is an
  Option.  unicodedata.normalize("NFKC", s) is an external library call;
  it is modelled as the identity, which is exact on the ASCII texts used
  by every concrete input below.  Python str.strip / str.replace and the
  regex "\s+" are modelled character-by-character on List Char.
-/

namespace BPE

/-- The five special tokens, in their fixed order (SPECIAL_TOKENS). -/
def SPECIAL_TOKENS : List String := ["<pad>", "<unk>", "<s>", "</s>", "<mask>"]

/-- The end-of-word marker appended to every word. -/
def eowMarker : String := "</w>"

/-- The characters of the end-of-word marker. -/
def markerL : List Char := ['<', '/', 'w', '>']

/-- nth element of a list (Python indexing into the id2token mapping). -/
def nth : List α → Nat → Option α
  | [], _ => none
  | a :: _, 0 => some a
  | _ :: l, n + 1 => nth l n

/-- Adjacent pairs of a symbol sequence: pairs = [(t i, t (i+1))]. -/
def pairsOf (l : List String) : List (String × String) := l.zip l.tail

/-- One greedy left-to-right non-overlapping replacement pass for a pair,
as in merge_pair and in the inner while-loop of _encode_word: wherever two
adjacent symbols equal the pair, replace them by their concatenation and
advance by two, otherwise copy one symbol and advance by one. -/
def applyMergePass (p : String × String) : List String → List String
  | x :: y :: rest =>
    if x = p.1 ∧ y = p.2 then (p.1 ++ p.2) :: applyMergePass p rest
    else x :: applyMergePass p (y :: rest)
  | l => l

theorem applyMergePass_nil (p : String × String) : applyMergePass p [] = [] := rfl

theorem applyMergePass_single (p : String × String) (x : String) :
    applyMergePass p [x] = [x] := rfl

theorem pairsOf_cons_cons (x y : String) (r : List String) :
    pairsOf (x :: y :: r) = (x, y) :: pairsOf (y :: r) := rfl

/-- A merge pass never lengthens the symbol sequence. -/
theorem applyMergePass_length_le (p : String × String) :
    ∀ l : List String, (applyMergePass p l).length ≤ l.length := by
  intro l
  induction l using applyMergePass.induct p with
  | case1 x y rest h ih =>
    simp only [applyMergePass, if_pos h, List.length_cons]
    omega
  | case2 x y rest h ih =>
    simp only [applyMergePass, if_neg h, List.length_cons]
    simpa using ih
  | case3 l h =>
    cases l with
    | nil => simp [applyMergePass]
    | cons a t =>
      cases t with
      | nil => simp [applyMergePass]
      | cons b r => exact absurd rfl (h a b r)

/-- Applying a pass for a pair that actually occurs strictly shortens the
symbol sequence. -/
theorem applyMergePass_length_lt (p : String × String) :
    ∀ l : List String, p ∈ pairsOf l → (applyMergePass p l).length < l.length := by
  intro l
  induction l using applyMergePass.induct p with
  | case1 x y rest h ih =>
    intro _
    simp only [applyMergePass, if_pos h, List.length_cons]
    have := applyMergePass_length_le p rest
    omega
  | case2 x y rest h ih =>
    intro hm
    rw [pairsOf_cons_cons] at hm
    rcases List.mem_cons.mp hm with heq | hm2
    · exact absurd ⟨(congrArg Prod.fst heq).symm, (congrArg Prod.snd heq).symm⟩ h
    · simp only [applyMergePass, if_neg h, List.length_cons]
      exact Nat.succ_lt_succ (ih hm2)
  | case3 l h =>
    intro hm
    cases l with
    | nil => simp [pairsOf] at hm
    | cons a t =>
      cases t with
      | nil => simp [pairsOf] at hm
      | cons b r => exact absurd rfl (h a b r)

/-- The merge candidates of the inner loop of _encode_word: the adjacent
pairs that occur in the learned merge list (p in self.pair2merged). -/
def candsOf (merges : List (String × String)) (syms : List String) :
    List (String × String) :=
  (pairsOf syms).filter (fun p => decide (p ∈ merges))

/-- merges.index p: position of the first occurrence of p in the merge
list (its rank; lowest = earliest learned). -/
def rankIn (merges : List (String × String)) (p : String × String) : Nat :=
  match merges with
  | [] => 0
  | q :: ms => if q = p then 0 else rankIn ms p + 1

/-- min(merge_candidates, key=lambda p: self.merges.index(p)): the first
candidate of lowest rank. -/
def minByRank (merges : List (String × String)) (c : String × String)
    (cs : List (String × String)) : String × String :=
  cs.foldl (fun best q => if rankIn merges q < rankIn merges best then q else best) c

theorem minByRank_spec (merges : List (String × String)) :
    ∀ (cs : List (String × String)) (c : String × String),
      minByRank merges c cs ∈ c :: cs ∧
      ∀ q ∈ c :: cs, rankIn merges (minByRank merges c cs) ≤ rankIn merges q := by
  intro cs
  induction cs with
  | nil =>
    intro c
    exact ⟨List.mem_cons_self _ _, by intro q hq; simp at hq; simp [hq, minByRank]⟩
  | cons d ds ih =>
    intro c
    have hstep : minByRank merges c (d :: ds) =
        minByRank merges (if rankIn merges d < rankIn merges c then d else c) ds := rfl
    by_cases hlt : rankIn merges d < rankIn merges c
    · rw [hstep, if_pos hlt]
      obtain ⟨hmem, hmin⟩ := ih d
      refine ⟨List.mem_cons_of_mem c hmem, ?_⟩
      intro q hq
      rcases List.mem_cons.mp hq with rfl | hq2
      · exact le_of_lt (lt_of_le_of_lt (hmin d (List.mem_cons_self _ _)) hlt)
      · exact hmin q hq2
    · rw [hstep, if_neg hlt]
      obtain ⟨hmem, hmin⟩ := ih c
      refine ⟨?_, ?_⟩
      · rcases List.mem_cons.mp hmem with h | h
        · rw [h]; exact List.mem_cons_self _ _
        · exact List.mem_cons_of_mem _ (List.mem_cons_of_mem _ h)
      · intro q hq
        rcases List.mem_cons.mp hq with rfl | hq2
        · exact hmin q (List.mem_cons_self _ _)
        · rcases List.mem_cons.mp hq2 with rfl | hq3
          · exact le_trans (hmin c (List.mem_cons_self _ _)) (Nat.le_of_not_lt hlt)
          · exact hmin q (List.mem_cons_of_mem _ hq3)

theorem candsOf_sub (merges : List (String × String)) (syms : List String) :
    ∀ p ∈ candsOf merges syms, p ∈ pairsOf syms ∧ p ∈ merges := by
  intro p hp
  have := List.mem_filter.mp hp
  exact ⟨this.1, of_decide_eq_true this.2⟩

/-- The while-True loop of _encode_word: repeatedly pick the lowest-rank
candidate pair and run one replacement pass, until no adjacent pair is a
learned merge.  Terminates because each pass strictly shortens the list. -/
def encodeLoop (merges : List (String × String)) (syms : List String) :
    List String :=
  match h : candsOf merges syms with
  | [] => syms
  | c :: cs => encodeLoop merges (applyMergePass (minByRank merges c cs) syms)
termination_by syms.length
decreasing_by
  have hmem : minByRank merges c cs ∈ c :: cs := (minByRank_spec merges cs c).1
  have : minByRank merges c cs ∈ candsOf merges syms := h ▸ hmem
  exact applyMergePass_length_lt _ _ (candsOf_sub merges syms _ this).1

/-- Fuel-indexed version of the encode loop (used to state termination:
a fuel equal to the length of the symbol sequence always suffices). -/
def encodeLoopFuel (merges : List (String × String)) :
    Nat → List String → List String
  | 0, syms => syms
  | n + 1, syms =>
    match candsOf merges syms with
    | [] => syms
    | c :: cs => encodeLoopFuel merges n (applyMergePass (minByRank merges c cs) syms)

theorem encodeLoop_eq_of_cands_nil (merges : List (String × String))
    (syms : List String) (h : candsOf merges syms = []) :
    encodeLoop merges syms = syms := by
  rw [encodeLoop]
  split
  · rfl
  · rename_i c cs hcs
    rw [h] at hcs
    exact absurd hcs.symm (List.cons_ne_nil c cs)

theorem encodeLoop_eq_of_cands_cons (merges : List (String × String))
    (syms : List String) (c : String × String) (cs : List (String × String))
    (h : candsOf merges syms = c :: cs) :
    encodeLoop merges syms = encodeLoop merges (applyMergePass (minByRank merges c cs) syms) := by
  rw [encodeLoop]
  split
  · rename_i hnil
    rw [h] at hnil
    exact absurd hnil (List.cons_ne_nil c cs)
  · rename_i c2 cs2 hcs
    rw [h] at hcs
    cases hcs
    rfl

/-- The loop result is a fixpoint: no adjacent pair of the final symbol
sequence occurs in the merge list. -/
theorem encodeLoop_fixpoint_aux (merges : List (String × String)) :
    ∀ (n : Nat) (syms : List String), syms.length ≤ n →
      candsOf merges (encodeLoop merges syms) = [] := by
  intro n
  induction n with
  | zero =>
    intro syms hlen
    have : syms = [] := List.eq_nil_of_length_eq_zero (Nat.le_zero.mp hlen)
    subst this
    rw [encodeLoop_eq_of_cands_nil merges [] rfl]
    rfl
  | succ n ih =>
    intro syms hlen
    match h : candsOf merges syms with
    | [] => rw [encodeLoop_eq_of_cands_nil merges syms h]; exact h
    | c :: cs =>
      rw [encodeLoop_eq_of_cands_cons merges syms c cs h]
      have hmem : minByRank merges c cs ∈ candsOf merges syms :=
        h ▸ (minByRank_spec merges cs c).1
      have hlt := applyMergePass_length_lt _ _ (candsOf_sub merges syms _ hmem).1
      exact ih _ (by omega)

theorem encodeLoop_fixpoint (merges : List (String × String)) :
    ∀ syms : List String, candsOf merges (encodeLoop merges syms) = [] := by
  intro syms
  exact encodeLoop_fixpoint_aux merges syms.length syms le_rfl

theorem encodeLoopFuel_eq (merges : List (String × String)) :
    ∀ (n : Nat) (syms : List String), syms.length ≤ n →
      encodeLoopFuel merges n syms = encodeLoop merges syms := by
  intro n
  induction n with
  | zero =>
    intro syms hlen
    have : syms = [] := List.eq_nil_of_length_eq_zero (Nat.le_zero.mp hlen)
    subst this
    rw [encodeLoop_eq_of_cands_nil merges [] rfl]
    rfl
  | succ n ih =>
    intro syms hlen
    match h : candsOf merges syms with
    | [] =>
      rw [encodeLoop_eq_of_cands_nil merges syms h]
      simp [encodeLoopFuel, h]
    | c :: cs =>
      rw [encodeLoop_eq_of_cands_cons merges syms c cs h]
      have hmem : minByRank merges c cs ∈ candsOf merges syms :=
        h ▸ (minByRank_spec merges cs c).1
      have hlt := applyMergePass_length_lt _ _ (candsOf_sub merges syms _ hmem).1
      have : (applyMergePass (minByRank merges c cs) syms).length ≤ n := by omega
      simp only [encodeLoopFuel, h]
      exact ih _ this

/-- re.sub(r"\s+", " ", s): collapse every maximal whitespace run to one
ASCII space (whitespace per Char.isWhitespace, which covers the ASCII
whitespace classes of the regex).  The flag records whether the previous
character belonged to a whitespace run already replaced. -/
def collapseWsAux : Bool → List Char → List Char
  | _, [] => []
  | prevWs, c :: cs =>
    if c.isWhitespace then
      if prevWs then collapseWsAux true cs else ' ' :: collapseWsAux true cs
    else c :: collapseWsAux false cs

/-- Whitespace collapse (see collapseWsAux). -/
def collapseWs (l : List Char) : List Char :=
  collapseWsAux false l

/-- str.strip(): drop whitespace from both ends. -/
def pyStrip (l : List Char) : List Char :=
  ((l.dropWhile Char.isWhitespace).reverse.dropWhile Char.isWhitespace).reverse

/-- normalize_text: NFKC normalization (an external unicodedata call,
modelled as the identity; exact on ASCII data), then whitespace collapse,
then strip. -/
def normalize_text (s : String) : String :=
  ⟨pyStrip (collapseWs s.data)⟩

/-- text.split(" "): split on every single space, keeping empty fragments
(Python's str.split with an explicit separator). -/
def splitSpace : List Char → List (List Char)
  | [] => [[]]
  | c :: cs =>
    if c = ' ' then [] :: splitSpace cs
    else
      match splitSpace cs with
      | [] => [[c]]
      | w :: ws => (c :: w) :: ws

/-- tuple(list(w) + ["</w>"]): the WordShape of a word, its characters as
one-character symbols followed by the end-of-word marker. -/
def shapeOf (w : List Char) : List String :=
  w.map (fun c => String.mk [c]) ++ [eowMarker]

/-- A word vocabulary: insertion-ordered mapping WordShape -> count. -/
abbrev Vocab := List (List String × Nat)

/-- counter[k] += v on an insertion-ordered mapping: bump an existing key
in place, or append a fresh key with count v. -/
def counterAdd (m : List (α × Nat)) (k : α) (v : Nat) [DecidableEq α] :
    List (α × Nat) :=
  if m.any (fun e => decide (e.1 = k)) then
    m.map (fun e => if e.1 = k then (e.1, e.2 + v) else e)
  else m ++ [(k, v)]

/-- d[k] = v on an insertion-ordered mapping: overwrite an existing key in
place, or append a fresh key. -/
def dictSet (m : List (α × β)) (k : α) (v : β) [DecidableEq α] :
    List (α × β) :=
  if m.any (fun e => decide (e.1 = k)) then
    m.map (fun e => if e.1 = k then (k, v) else e)
  else m ++ [(k, v)]

/-- Counter lookup with default 0 (first matching key). -/
def countOf [DecidableEq α] (k : α) : List (α × Nat) → Nat
  | [] => 0
  | e :: m => if e.1 = k then e.2 else countOf k m

/-- Mapping lookup (first matching key). -/
def lookupKey [DecidableEq α] (k : α) : List (α × β) → Option β
  | [] => none
  | e :: m => if e.1 = k then some e.2 else lookupKey k m

/-- get_vocab_from_corpus: normalize each line, split on spaces, and count
the WordShape of every non-empty word. -/
def get_vocab_from_corpus (corpus : List String) : Vocab :=
  corpus.foldl
    (fun vocab line =>
      (splitSpace (normalize_text line).data).foldl
        (fun v w => if w = [] then v else counterAdd v (shapeOf w) 1) vocab)
    []

/-- get_pair_frequencies: accumulate, for every WordShape with count freq
and every adjacent position, freq into that symbol pair. -/
def get_pair_frequencies (vocab : Vocab) : List ((String × String) × Nat) :=
  vocab.foldl
    (fun pairs e => (pairsOf e.1).foldl (fun ps p => counterAdd ps p e.2) pairs)
    []

/-- merge_pair: rebuild the vocabulary, replacing each WordShape by its
post-merge form; a collision of post-merge keys overwrites (d[k] = freq). -/
def merge_pair (vocab : Vocab) (pair : String × String) : Vocab :=
  vocab.foldl (fun nv e => dictSet nv (applyMergePass pair e.1) e.2) []

/-- pairs.most_common(1)[0]: the earliest-inserted entry of maximal count
(Counter.most_common sorts by count with a stable sort). -/
def mostCommon1 (m : List (α × Nat)) : Option (α × Nat) :=
  m.foldl
    (fun acc e =>
      match acc with
      | none => some e
      | some b => if e.2 > b.2 then some e else some b)
    none

/-- The training loop of train_bpe: up to fuel iterations, recompute the
pair statistics, stop if they are empty, otherwise record the most common
pair and fold it into the vocabulary.  Returns the merge list and the
final vocabulary. -/
def trainLoop (vocab : Vocab) : Nat → List (String × String) × Vocab
  | 0 => ([], vocab)
  | n + 1 =>
    match mostCommon1 (get_pair_frequencies vocab) with
    | none => ([], vocab)
    | some e =>
      let r := trainLoop (merge_pair vocab e.1) n
      (e.1 :: r.1, r.2)

/-- All symbols occurring in the shapes of a vocabulary, in order. -/
def symbolsOf (vocab : Vocab) : List String :=
  (vocab.map Prod.fst).flatten

/-- Lexicographic comparison of character sequences by code point, the
order Python uses to compare strings. -/
def lexLe : List Char → List Char → Bool
  | [], _ => true
  | _ :: _, [] => false
  | c :: cs, d :: ds => if c = d then lexLe cs ds else decide (c < d)

/-- Insertion into a sorted list of strings (lexicographic order on code
points, as Python string comparison). -/
def insertSorted (s : String) : List String → List String
  | [] => [s]
  | t :: ts => if lexLe s.data t.data then s :: t :: ts else t :: insertSorted s ts

/-- sorted(...) on distinct strings. -/
def pySorted (l : List String) : List String :=
  l.foldr insertSorted []

/-- The token list built after training: the special-token block followed
by the remaining observed symbols, deduplicated and sorted. -/
def buildTokenList (vocab : Vocab) : List String :=
  SPECIAL_TOKENS ++
    pySorted (((symbolsOf vocab).dedup).filter (fun s => decide (s ∉ SPECIAL_TOKENS)))

/-- train_bpe: build the word vocabulary, run the merge loop (a negative
merge budget runs zero iterations, as range(num_merges)), and build the
token list.  token2id enumerates the token list, so a token id is its
position in the returned list. -/
def train_bpe (corpus : List String) (numMerges : Int) :
    List (String × String) × List String :=
  let vocab := get_vocab_from_corpus corpus
  let r := trainLoop vocab numMerges.toNat
  (r.1, buildTokenList r.2)

/-- token2id built as {tok: i for i, tok in enumerate(token_list)}: a
later duplicate key overwrites, so lookup returns the last index of the
token; the search tries the tail first. -/
def token2idGetAux : List String → String → Nat → Option Nat
  | [], _, _ => none
  | t :: ts, s, i =>
    match token2idGetAux ts s (i + 1) with
    | some j => some j
    | none => if t = s then some i else none

/-- token2id.get(s): the id of a token, if present. -/
def token2idGet (tokenList : List String) (s : String) : Option Int :=
  (token2idGetAux tokenList s 0).map Int.ofNat

/-- Whether a Python id value (None or an int) is a key of the derived
id2token mapping, i.e. a valid position of the token list. -/
def idValid (tokenList : List String) : Option Int → Bool
  | none => false
  | some n => decide (0 ≤ n) && decide (n.toNat < tokenList.length)

/-- id2token.get(i, "<unk>"): the token of an id, with unknown-token
fallback for ids with no inverse mapping. -/
def id2tokenGet (tokenList : List String) : Option Int → String
  | none => "<unk>"
  | some n => if 0 ≤ n then (nth tokenList n.toNat).getD "<unk>" else "<unk>"

/-- Concatenation of the character data of a list of symbols ("".join). -/
def joinS (l : List String) : List Char :=
  (l.map String.data).flatten

/-- str.replace("</w>", " "): scan left to right; wherever the marker is
a prefix of the rest, emit one space and continue after it, otherwise copy
one character. -/
def pyReplaceMarker : List Char → List Char
  | '<' :: '/' :: 'w' :: '>' :: rest => ' ' :: pyReplaceMarker rest
  | c :: cs => c :: pyReplaceMarker cs
  | [] => []

/-- Whether the end-of-word marker occurs (as a character substring). -/
def hasMarker : List Char → Bool
  | '<' :: '/' :: 'w' :: '>' :: _ => true
  | _ :: cs => hasMarker cs
  | [] => false

/-- decode: map every id to its token (unknown-token fallback), join,
replace each end-of-word marker by a space, and strip. -/
def decode (tokenList : List String) (ids : List (Option Int)) : String :=
  ⟨pyStrip (pyReplaceMarker
    (((ids.map (id2tokenGet tokenList)).map String.data).flatten))⟩

/-- The symbol sequence computed by _encode_word before the id mapping:
the characters plus the end-of-word marker, run through the merge loop. -/
def encode_word_syms (merges : List (String × String)) (w : List Char) :
    List String :=
  encodeLoop merges (shapeOf w)

/-- _encode_word: the final symbols, with bare end-of-word markers
dropped, each mapped to its id; a symbol absent from the vocabulary falls
back to the id of "<unk>" (itself None when "<unk>" is absent). -/
def encode_word (merges : List (String × String)) (tokenList : List String)
    (w : List Char) : List (Option Int) :=
  ((encode_word_syms merges w).filter (fun s => decide (s ≠ eowMarker))).map
    (fun s => (token2idGet tokenList s).orElse (fun _ => token2idGet tokenList "<unk>"))

/-- encode: normalize, split on spaces, encode each word, and surround
with the begin/end-of-sequence ids when add_special is set. -/
def encode (merges : List (String × String)) (tokenList : List String)
    (text : String) (addSpecial : Bool) : List (Option Int) :=
  let body :=
    (splitSpace (normalize_text text).data).foldl
      (fun acc w => acc ++ encode_word merges tokenList w) []
  if addSpecial then
    [token2idGet tokenList "<s>"] ++ body ++ [token2idGet tokenList "</s>"]
  else body

theorem mostCommon1_isSome_of_acc (step : Option (α × Nat) → (α × Nat) → Option (α × Nat))
    (hstep : ∀ b e, (step (some b) e).isSome) :
    ∀ (m : List (α × Nat)) (b : α × Nat), (m.foldl step (some b)).isSome := by
  intro m
  induction m with
  | nil => intro b; rfl
  | cons e m ih =>
    intro b
    have h1 : (step (some b) e).isSome := hstep b e
    obtain ⟨b2, hb2⟩ := Option.isSome_iff_exists.mp h1
    simp only [List.foldl_cons, hb2]
    exact ih b2

theorem mostCommon1_eq_none (m : List (α × Nat)) (h : mostCommon1 m = none) :
    m = [] := by
  cases m with
  | nil => rfl
  | cons e m =>
    exfalso
    have : (mostCommon1 (e :: m)).isSome := by
      have := mostCommon1_isSome_of_acc
        (fun acc e => match acc with
          | none => some e
          | some b => if e.2 > b.2 then some e else some b)
        (by
          intro b e
          simp only
          split <;> rfl) m e
      simpa [mostCommon1] using this
    rw [h] at this
    exact Bool.noConfusion this

theorem trainLoop_length_le : ∀ (n : Nat) (v : Vocab),
    (trainLoop v n).1.length ≤ n := by
  intro n
  induction n with
  | zero => intro v; exact Nat.le_refl 0
  | succ n ih =>
    intro v
    unfold trainLoop
    cases h : mostCommon1 (get_pair_frequencies v) with
    | none => exact Nat.zero_le _
    | some e =>
      simp only [List.length_cons]
      exact Nat.succ_le_succ (ih _)

theorem trainLoop_early_stop : ∀ (n : Nat) (v : Vocab),
    (trainLoop v n).1.length < n →
    get_pair_frequencies (trainLoop v n).2 = [] := by
  intro n
  induction n with
  | zero => intro v h; omega
  | succ n ih =>
    intro v h
    unfold trainLoop at h ⊢
    cases hmc : mostCommon1 (get_pair_frequencies v) with
    | none =>
      simp only [hmc]
      exact mostCommon1_eq_none _ hmc
    | some e =>
      rw [hmc] at h
      simp only [hmc, List.length_cons] at h ⊢
      exact ih _ (Nat.lt_of_succ_lt_succ h)

theorem trainLoop_nil : ∀ n : Nat, trainLoop [] n = ([], []) := by
  intro n
  cases n <;> rfl

theorem train_bpe_nil (n : Int) : train_bpe [] n = ([], SPECIAL_TOKENS) := by
  simp only [train_bpe]
  rw [show get_vocab_from_corpus [] = ([] : Vocab) from rfl, trainLoop_nil]
  rfl

theorem dictSet_fresh [DecidableEq α] (m : List (α × β)) (k : α) (v : β)
    (h : ∀ e ∈ m, e.1 ≠ k) : dictSet m k v = m ++ [(k, v)] := by
  have hany : (m.any (fun e => decide (e.1 = k))) = false := by
    rw [List.any_eq_false]
    intro e he
    simpa using h e he
  unfold dictSet
  rw [hany]
  simp

theorem dictSet_keys [DecidableEq α] (m : List (α × β)) (k : α) (v : β) :
    ∀ e ∈ dictSet m k v, e.1 ∈ m.map Prod.fst ∨ e.1 = k := by
  intro e he
  unfold dictSet at he
  split at he
  · obtain ⟨e0, he0, heq⟩ := List.mem_map.mp he
    by_cases h0 : e0.1 = k
    · right
      rw [← heq]
      simp [h0]
    · left
      rw [← heq]
      simp only [h0, if_neg h0]
      exact List.mem_map.mpr ⟨e0, he0, rfl⟩
  · rcases List.mem_append.mp he with h1 | h1
    · exact Or.inl (List.mem_map.mpr ⟨e, h1, rfl⟩)
    · right
      simp only [List.mem_singleton] at h1
      rw [h1]

theorem merge_pair_keys (vocab : Vocab) (p : String × String) :
    ∀ e ∈ merge_pair vocab p, ∃ t ∈ vocab, e.1 = applyMergePass p t.1 := by
  suffices h : ∀ (l : Vocab) (acc : Vocab),
      ∀ e ∈ l.foldl (fun nv en => dictSet nv (applyMergePass p en.1) en.2) acc,
        e.1 ∈ acc.map Prod.fst ∨ ∃ t ∈ l, e.1 = applyMergePass p t.1 by
    intro e he
    rcases h vocab [] e he with h1 | h1
    · simp at h1
    · exact h1
  intro l
  induction l with
  | nil =>
    intro acc e he
    exact Or.inl (List.mem_map.mpr ⟨e, he, rfl⟩)
  | cons en l ih =>
    intro acc e he
    simp only [List.foldl_cons] at he
    rcases ih _ e he with h1 | h1
    · obtain ⟨e0, he0, heq⟩ := List.mem_map.mp h1
      rcases dictSet_keys acc (applyMergePass p en.1) en.2 e0 he0 with h2 | h2
      · exact Or.inl (heq ▸ h2)
      · exact Or.inr ⟨en, List.mem_cons_self _ _, heq ▸ h2⟩
    · obtain ⟨t, ht, heq⟩ := h1
      exact Or.inr ⟨t, List.mem_cons_of_mem _ ht, heq⟩

theorem merge_pair_no_collision_aux (p : String × String) :
    ∀ (l : Vocab) (acc : Vocab),
      ((acc.map Prod.fst) ++ l.map (fun e => applyMergePass p e.1)).Nodup →
      l.foldl (fun nv en => dictSet nv (applyMergePass p en.1) en.2) acc =
        acc ++ l.map (fun e => (applyMergePass p e.1, e.2)) := by
  intro l
  induction l with
  | nil =>
    intro acc _
    simp
  | cons en l ih =>
    intro acc hnd
    simp only [List.map_cons] at hnd
    have hfresh : ∀ e ∈ acc, e.1 ≠ applyMergePass p en.1 := by
      intro e he heq
      have hdisj := (List.nodup_append.mp hnd).2.2
      exact hdisj (List.mem_map.mpr ⟨e, he, rfl⟩)
        (heq ▸ List.mem_cons_self _ _)
    simp only [List.foldl_cons, List.map_cons]
    rw [dictSet_fresh _ _ _ hfresh]
    rw [ih (acc ++ [(applyMergePass p en.1, en.2)])
      (by
        simp only [List.map_append, List.map_cons, List.map_nil]
        rw [List.append_assoc, List.singleton_append]
        exact hnd)]
    simp

/-- With pairwise-distinct post-merge shapes, merge_pair is exactly the
count-preserving re-keying of every entry. -/
theorem merge_pair_no_collision (vocab : Vocab) (p : String × String)
    (hnd : (vocab.map (fun e => applyMergePass p e.1)).Nodup) :
    merge_pair vocab p = vocab.map (fun e => (applyMergePass p e.1, e.2)) := by
  have := merge_pair_no_collision_aux p vocab [] (by simpa using hnd)
  simpa [merge_pair] using this

theorem countOf_map_bump [DecidableEq α] (p q : α) (hne : q ≠ p) (v : Nat) :
    ∀ m : List (α × Nat),
      countOf p (m.map (fun e => if e.1 = q then (e.1, e.2 + v) else e)) =
        countOf p m := by
  intro m
  induction m with
  | nil => rfl
  | cons e m ih =>
    by_cases h1 : e.1 = q
    · have h2 : e.1 ≠ p := fun hp => hne (h1.symm.trans hp)
      simp [countOf, h1, h2, ih, hne]
    · by_cases h2 : e.1 = p
      · simp [countOf, h1, h2, hne, Ne.symm hne]
      · simp [countOf, h1, h2, ih]

theorem countOf_append_single [DecidableEq α] (p q : α) (hne : q ≠ p) (v : Nat) :
    ∀ m : List (α × Nat), countOf p (m ++ [(q, v)]) = countOf p m := by
  intro m
  induction m with
  | nil => simp [countOf, hne]
  | cons e m ih =>
    by_cases h2 : e.1 = p
    · simp only [List.cons_append, countOf, if_pos h2]
    · simp only [List.cons_append, countOf, if_neg h2]
      exact ih

theorem countOf_counterAdd_ne [DecidableEq α] (p q : α) (hne : q ≠ p)
    (v : Nat) (m : List (α × Nat)) :
    countOf p (counterAdd m q v) = countOf p m := by
  unfold counterAdd
  split
  · exact countOf_map_bump p q hne v m
  · exact countOf_append_single p q hne v m

theorem countOf_pairfold_ne (p : String × String) (f : Nat) :
    ∀ (ps : List (String × String)) (acc : List ((String × String) × Nat)),
      p ∉ ps →
      countOf p (ps.foldl (fun a q => counterAdd a q f) acc) = countOf p acc := by
  intro ps
  induction ps with
  | nil => intro acc _; rfl
  | cons q ps ih =>
    intro acc hp
    simp only [List.foldl_cons]
    rw [ih _ (fun hmem => hp (List.mem_cons_of_mem _ hmem))]
    exact countOf_counterAdd_ne p q (fun hq => hp (hq ▸ List.mem_cons_self _ _)) f acc

theorem countOf_gpf_zero (p : String × String) :
    ∀ (l : Vocab) (acc : List ((String × String) × Nat)),
      (∀ e ∈ l, p ∉ pairsOf e.1) →
      countOf p
        (l.foldl (fun pairs e => (pairsOf e.1).foldl (fun ps q => counterAdd ps q e.2) pairs)
          acc) = countOf p acc := by
  intro l
  induction l with
  | nil => intro acc _; rfl
  | cons e l ih =>
    intro acc hl
    simp only [List.foldl_cons]
    rw [ih _ (fun e2 he2 => hl e2 (List.mem_cons_of_mem _ he2))]
    exact countOf_pairfold_ne p e.2 _ acc (hl e (List.mem_cons_self _ _))

theorem applyMergePass_ne_nil (p : String × String) :
    ∀ l : List String, l ≠ [] → applyMergePass p l ≠ [] := by
  intro l hl
  cases l with
  | nil => exact absurd rfl hl
  | cons x t =>
    cases t with
    | nil => simp [applyMergePass]
    | cons y r =>
      show applyMergePass p (x :: y :: r) ≠ []
      unfold applyMergePass
      split <;> simp

theorem applyMergePass_cons_pos (p : String × String) (x y : String)
    (rest : List String) (h : x = p.1 ∧ y = p.2) :
    applyMergePass p (x :: y :: rest) = (p.1 ++ p.2) :: applyMergePass p rest := by
  conv_lhs => unfold applyMergePass
  rw [if_pos h]

theorem applyMergePass_cons_neg (p : String × String) (x y : String)
    (rest : List String) (h : ¬(x = p.1 ∧ y = p.2)) :
    applyMergePass p (x :: y :: rest) = x :: applyMergePass p (y :: rest) := by
  conv_lhs => unfold applyMergePass
  rw [if_neg h]

theorem applyMergePass_head (p : String × String) (y : String) (t : List String) :
    (applyMergePass p (y :: t)).head? = some y ∨
    ((applyMergePass p (y :: t)).head? = some (p.1 ++ p.2) ∧ y = p.1) := by
  cases t with
  | nil => left; rfl
  | cons z r =>
    by_cases h : y = p.1 ∧ z = p.2
    · right
      rw [applyMergePass_cons_pos p y z r h]
      exact ⟨rfl, h.1⟩
    · left
      rw [applyMergePass_cons_neg p y z r h]
      rfl

theorem string_append_left_ne (a b : String) (hb : b ≠ "") : a ++ b ≠ a := by
  intro h
  have hlen := congrArg String.length h
  rw [String.length_append] at hlen
  have : b.length = 0 := by omega
  exact hb (String.ext (List.eq_nil_of_length_eq_zero this))

theorem string_append_right_ne (a b : String) (ha : a ≠ "") : a ++ b ≠ b := by
  intro h
  have hlen := congrArg String.length h
  rw [String.length_append] at hlen
  have : a.length = 0 := by omega
  exact ha (String.ext (List.eq_nil_of_length_eq_zero this))

/-- After one replacement pass for (a, b) over nonempty symbols, the pair
(a, b) no longer occurs among adjacent symbols. -/
theorem pair_gone_after_pass (p : String × String) :
    ∀ l : List String, (∀ s ∈ l, s ≠ "") → p ∉ pairsOf (applyMergePass p l) := by
  intro l
  induction l using applyMergePass.induct p with
  | case1 x y rest h ih =>
    intro hne hmem
    have hrest : ∀ s ∈ rest, s ≠ "" :=
      fun s hs => hne s (List.mem_cons_of_mem _ (List.mem_cons_of_mem _ hs))
    rw [applyMergePass_cons_pos p x y rest h] at hmem
    cases hR : applyMergePass p rest with
    | nil => rw [hR] at hmem; simp [pairsOf] at hmem
    | cons hd tl =>
      rw [hR, pairsOf_cons_cons] at hmem
      rcases List.mem_cons.mp hmem with heq | hmem2
      · have h1 : p.1 = p.1 ++ p.2 := congrArg Prod.fst heq
        have hy2 : p.2 ≠ "" :=
          h.2 ▸ hne y (List.mem_cons_of_mem _ (List.mem_cons_self _ _))
        exact string_append_left_ne p.1 p.2 hy2 h1.symm
      · exact ih hrest (hR ▸ hmem2)
  | case2 x y rest h ih =>
    intro hne hmem
    have htail : ∀ s ∈ y :: rest, s ≠ "" :=
      fun s hs => hne s (List.mem_cons_of_mem _ hs)
    rw [applyMergePass_cons_neg p x y rest h] at hmem
    cases hR : applyMergePass p (y :: rest) with
    | nil => exact applyMergePass_ne_nil p (y :: rest) (List.cons_ne_nil y rest) hR
    | cons hd tl =>
      rw [hR, pairsOf_cons_cons] at hmem
      rcases List.mem_cons.mp hmem with heq | hmem2
      · have hx : p.1 = x := congrArg Prod.fst heq
        have hhd : p.2 = hd := congrArg Prod.snd heq
        rcases applyMergePass_head p y rest with hh | ⟨hh, hyp1⟩
        · rw [hR] at hh
          have h2 : hd = y := by simpa using hh
          exact h ⟨hx.symm, (hhd.trans h2).symm⟩
        · rw [hR] at hh
          have hhd2 : hd = p.1 ++ p.2 := by simpa using hh
          have hy2 : p.1 ≠ "" := by
            rw [← hyp1]
            exact hne y (List.mem_cons_of_mem _ (List.mem_cons_self _ _))
          exact string_append_right_ne p.1 p.2 hy2 (hhd.trans hhd2).symm
      · exact ih htail (hR ▸ hmem2)
  | case3 l h =>
    intro hne hmem
    cases l with
    | nil => simp [applyMergePass, pairsOf] at hmem
    | cons a t =>
      cases t with
      | nil => simp [applyMergePass, pairsOf] at hmem
      | cons b r => exact absurd rfl (h a b r)

/-- The pair that was just merged has frequency zero in the recomputed
pair statistics, provided all symbols are nonempty. -/
theorem merged_pair_freq_zero (vocab : Vocab) (p : String × String)
    (hne : ∀ e ∈ vocab, ∀ s ∈ e.1, s ≠ "") :
    countOf p (get_pair_frequencies (merge_pair vocab p)) = 0 := by
  unfold get_pair_frequencies
  rw [countOf_gpf_zero p (merge_pair vocab p) []]
  · rfl
  · intro e he
    obtain ⟨t, ht, heq⟩ := merge_pair_keys vocab p e he
    rw [heq]
    exact pair_gone_after_pass p t.1 (hne t ht)

theorem foldl_invariant (f : β → α → β) (P : β → Prop)
    (l : List α) (b : β) (hb : P b) (hf : ∀ b a, P b → a ∈ l → P (f b a)) :
    P (l.foldl f b) := by
  induction l generalizing b with
  | nil => exact hb
  | cons a l ih =>
    exact ih (f b a) (hf b a hb (List.mem_cons_self _ _))
      (fun b2 a2 hb2 ha2 => hf b2 a2 hb2 (List.mem_cons_of_mem _ ha2))

theorem symbolsOf_counterAdd (v : Vocab) (k : List String) (c : Nat) :
    ∀ s ∈ symbolsOf (counterAdd v k c), s ∈ symbolsOf v ∨ s ∈ k := by
  intro s hs
  unfold counterAdd at hs
  split at hs
  · left
    unfold symbolsOf at hs ⊢
    obtain ⟨d, hd, hsd⟩ := List.mem_flatten.mp hs
    obtain ⟨e, he, hde⟩ := List.mem_map.mp hd
    obtain ⟨e0, he0, he0e⟩ := List.mem_map.mp he
    refine List.mem_flatten.mpr ⟨d, List.mem_map.mpr ⟨e0, he0, ?_⟩, hsd⟩
    rw [← hde, ← he0e]
    split <;> rfl
  · unfold symbolsOf at hs ⊢
    rw [List.map_append] at hs
    rw [List.flatten_append] at hs
    rcases List.mem_append.mp hs with h1 | h1
    · exact Or.inl (List.mem_flatten.mp h1 |>.elim
        (fun d hd => List.mem_flatten.mpr ⟨d, hd.1, hd.2⟩))
    · right
      simpa using h1

theorem entries_counterAdd (v : Vocab) (k : List String) (c : Nat) :
    ∀ e ∈ counterAdd v k c, e.1 ∈ v.map Prod.fst ∨ e.1 = k := by
  intro e he
  unfold counterAdd at he
  split at he
  · obtain ⟨e0, he0, heq⟩ := List.mem_map.mp he
    left
    refine List.mem_map.mpr ⟨e0, he0, ?_⟩
    rw [← heq]
    split <;> rfl
  · rcases List.mem_append.mp he with h1 | h1
    · exact Or.inl (List.mem_map.mpr ⟨e, h1, rfl⟩)
    · right
      simp only [List.mem_singleton] at h1
      rw [h1]

theorem mem_shapeOf (w : List Char) (s : String) (hs : s ∈ shapeOf w) :
    s = eowMarker ∨ s.length = 1 := by
  unfold shapeOf at hs
  rcases List.mem_append.mp hs with h1 | h1
  · obtain ⟨c, _, hc⟩ := List.mem_map.mp h1
    right
    rw [← hc]
    rfl
  · left
    simpa using h1

theorem eowMarker_mem_shapeOf (w : List Char) : eowMarker ∈ shapeOf w := by
  unfold shapeOf
  exact List.mem_append.mpr (Or.inr (List.mem_singleton.mpr rfl))

theorem get_vocab_symbols_pres (P : String → Prop)
    (hsh : ∀ (w : List Char), ∀ s ∈ shapeOf w, P s) (corpus : List String) :
    ∀ s ∈ symbolsOf (get_vocab_from_corpus corpus), P s := by
  unfold get_vocab_from_corpus
  apply foldl_invariant _ (fun v => ∀ s ∈ symbolsOf v, P s)
  · intro s hs
    simp [symbolsOf] at hs
  · intro v line hv _
    apply foldl_invariant _ (fun v2 => ∀ s ∈ symbolsOf v2, P s) _ _ hv
    intro v2 w hv2 _
    intro s hs
    by_cases hw : w = []
    · rw [if_pos hw] at hs
      exact hv2 s hs
    · rw [if_neg hw] at hs
      rcases symbolsOf_counterAdd v2 (shapeOf w) 1 s hs with h1 | h1
      · exact hv2 s h1
      · exact hsh w s h1

theorem get_vocab_symbols (corpus : List String) :
    ∀ s ∈ symbolsOf (get_vocab_from_corpus corpus), s = eowMarker ∨ s.length = 1 :=
  get_vocab_symbols_pres _ (fun w s hs => mem_shapeOf w s hs) corpus

theorem get_vocab_keys_marker (corpus : List String) :
    ∀ e ∈ get_vocab_from_corpus corpus, eowMarker ∈ e.1 := by
  unfold get_vocab_from_corpus
  refine foldl_invariant _ (fun v : Vocab => ∀ e ∈ v, eowMarker ∈ e.1) corpus [] ?_ ?_
  · intro e he
    simp at he
  · intro v line hv _
    refine foldl_invariant _ (fun v2 : Vocab => ∀ e ∈ v2, eowMarker ∈ e.1) _ v hv ?_
    intro v2 w hv2 _
    intro e he
    by_cases hw : w = []
    · rw [if_pos hw] at he
      exact hv2 e he
    · rw [if_neg hw] at he
      rcases entries_counterAdd v2 (shapeOf w) 1 e he with h1 | h1
      · obtain ⟨e0, he0, heq⟩ := List.mem_map.mp h1
        exact heq ▸ hv2 e0 he0
      · exact h1 ▸ eowMarker_mem_shapeOf w

theorem mem_insertSorted (s a : String) :
    ∀ l : List String, (a ∈ insertSorted s l ↔ a = s ∨ a ∈ l) := by
  intro l
  induction l with
  | nil => simp [insertSorted]
  | cons t ts ih =>
    unfold insertSorted
    split
    · simp
    · simp only [List.mem_cons, ih]
      tauto

theorem mem_pySorted (a : String) :
    ∀ l : List String, (a ∈ pySorted l ↔ a ∈ l) := by
  intro l
  induction l with
  | nil => simp [pySorted]
  | cons t ts ih =>
    show a ∈ insertSorted t (pySorted ts) ↔ _
    rw [mem_insertSorted, ih]
    simp

theorem eowMarker_mem_buildTokenList (v : Vocab) (hne : v ≠ []) :
    eowMarker ∈ buildTokenList v ∨ ¬ (∀ e ∈ v, eowMarker ∈ e.1) := by
  by_cases hall : ∀ e ∈ v, eowMarker ∈ e.1
  · left
    unfold buildTokenList
    apply List.mem_append.mpr
    right
    rw [mem_pySorted]
    apply List.mem_filter.mpr
    constructor
    · rw [List.mem_dedup]
      obtain ⟨e, he⟩ : ∃ e, e ∈ v := by
        cases v with
        | nil => exact absurd rfl hne
        | cons e v => exact ⟨e, List.mem_cons_self _ _⟩
      unfold symbolsOf
      exact List.mem_flatten.mpr ⟨e.1, List.mem_map.mpr ⟨e, he, rfl⟩, hall e he⟩
    · decide
  · exact Or.inr hall

/-- C2 (counterexample): merge_pair does not sum counts on collision.  On
the vocabulary {("a","b"): 1, ("ab",): 2}, merging ("a","b") maps both
shapes to ("ab",); the result holds count 2 (the later entry overwrites),
not the sum 3 claimed. -/
theorem claim_C2_counterexample :
    merge_pair [(["a", "b"], 1), (["ab"], 2)] ("a", "b") = [(["ab"], 2)] ∧
    lookupKey ["ab"] (merge_pair [(["a", "b"], 1), (["ab"], 2)] ("a", "b")) ≠
      some (1 + 2) := by
  constructor
  · decide
  · decide

/-- C2 (amended): merge_pair replaces each WordShape by its post-merge
form with its count preserved whenever the post-merge shapes are pairwise
distinct; on a collision the later entry overwrites the earlier count
(d[k] = freq), it does not sum. -/
theorem claim_C2_theorem : ∀ (vocab : Vocab) (p : String × String),
    (vocab.map (fun e => applyMergePass p e.1)).Nodup →
    merge_pair vocab p = vocab.map (fun e => (applyMergePass p e.1, e.2)) :=
  merge_pair_no_collision

theorem claim_C2_witness :
    ((([(["a", "b"], 1), (["c"], 5)] : Vocab).map
      (fun e => applyMergePass ("a", "b") e.1)).Nodup) ∧
    merge_pair [(["a", "b"], 1), (["c"], 5)] ("a", "b") = [(["ab"], 1), (["c"], 5)] := by
  refine ⟨by decide, ?_⟩
  have h := claim_C2_theorem [(["a", "b"], 1), (["c"], 5)] ("a", "b") (by decide)
  exact h.trans (by decide)

/-- C4: for every corpus and merge budget, the merge list of train_bpe has
length at most num_merges; strict inequality only when the pair statistics
of the final vocabulary are empty; and the ranks (list positions) of its
rules are unique and contiguous from 0 (the positions 0..len-1). -/
theorem claim_C4_theorem : ∀ (corpus : List String) (n : Nat),
    (train_bpe corpus (Int.ofNat n)).1 = (trainLoop (get_vocab_from_corpus corpus) n).1 ∧
    (train_bpe corpus (Int.ofNat n)).1.length ≤ n ∧
    ((train_bpe corpus (Int.ofNat n)).1.length < n →
      get_pair_frequencies (trainLoop (get_vocab_from_corpus corpus) n).2 = []) ∧
    (List.range (train_bpe corpus (Int.ofNat n)).1.length).Nodup := by
  intro corpus n
  have h1 : (train_bpe corpus (Int.ofNat n)).1 =
      (trainLoop (get_vocab_from_corpus corpus) n).1 := by
    simp [train_bpe]
  refine ⟨h1, ?_, ?_, List.nodup_range _⟩
  · rw [h1]
    exact trainLoop_length_le n _
  · intro h
    rw [h1] at h
    exact trainLoop_early_stop n _ h

theorem claim_C4_witness :
    (train_bpe [] (Int.ofNat 1)).1.length < 1 ∧
    get_pair_frequencies (trainLoop (get_vocab_from_corpus []) 1).2 = [] :=
  ⟨by decide, (claim_C4_theorem [] 1).2.2.1 (by decide)⟩

/-- C5: a merge budget of at most 0 yields an empty merge list and a token
list consisting of the five special tokens followed by the sorted raw
alphabet (every observed symbol is a single character or the end-of-word
marker, and the marker is present whenever the corpus has a word); an
empty corpus yields ([], SPECIAL_TOKENS) for every budget. -/
theorem claim_C5_theorem :
    (∀ (corpus : List String) (n : Int), n ≤ 0 →
      (train_bpe corpus n).1 = [] ∧
      (train_bpe corpus n).2 = SPECIAL_TOKENS ++
        pySorted (((symbolsOf (get_vocab_from_corpus corpus)).dedup).filter
          (fun s => decide (s ∉ SPECIAL_TOKENS))) ∧
      (∀ s ∈ symbolsOf (get_vocab_from_corpus corpus), s = eowMarker ∨ s.length = 1) ∧
      (get_vocab_from_corpus corpus ≠ [] → eowMarker ∈ (train_bpe corpus n).2)) ∧
    (∀ n : Int, train_bpe [] n = ([], SPECIAL_TOKENS)) := by
  constructor
  · intro corpus n hn
    have hz : n.toNat = 0 := Int.toNat_of_nonpos hn
    have h2 : train_bpe corpus n =
        ([], buildTokenList (get_vocab_from_corpus corpus)) := by
      simp only [train_bpe, hz]
      rfl
    refine ⟨by rw [h2], by rw [h2]; rfl, get_vocab_symbols corpus, ?_⟩
    intro hne
    rw [h2]
    rcases eowMarker_mem_buildTokenList (get_vocab_from_corpus corpus) hne with h | h
    · exact h
    · exact absurd (get_vocab_keys_marker corpus) h
  · exact train_bpe_nil

theorem claim_C5_witness :
    ((-3 : Int) ≤ 0 ∧ (train_bpe ["a b"] (-3)).1 = [] ∧
      get_vocab_from_corpus ["a b"] ≠ [] ∧
      eowMarker ∈ (train_bpe ["a b"] (-3)).2) ∧
    train_bpe [] 7 = ([], SPECIAL_TOKENS) := by
  have h := claim_C5_theorem
  refine ⟨⟨by decide, (h.1 ["a b"] (-3) (by decide)).1, by decide,
    (h.1 ["a b"] (-3) (by decide)).2.2.2 (by decide)⟩, h.2 7⟩

/-- C6: a replacement pass preserves or strictly reduces the symbol count
of every WordShape, strictly reducing any shape containing the pair; and,
for symbols that are nonempty strings (the data-model invariant), the
merged pair has frequency zero in the pair statistics recomputed from the
post-merge vocabulary. -/
theorem claim_C6_theorem : ∀ (vocab : Vocab) (p : String × String),
    (∀ tok : List String, (applyMergePass p tok).length ≤ tok.length) ∧
    (∀ tok : List String, p ∈ pairsOf tok → (applyMergePass p tok).length < tok.length) ∧
    ((∀ e ∈ vocab, ∀ s ∈ e.1, s ≠ "") →
      countOf p (get_pair_frequencies (merge_pair vocab p)) = 0) :=
  fun vocab p =>
    ⟨applyMergePass_length_le p, applyMergePass_length_lt p,
     fun hne => merged_pair_freq_zero vocab p hne⟩

theorem claim_C6_witness :
    (("a", "b") ∈ pairsOf ["a", "b"] ∧
      (applyMergePass ("a", "b") ["a", "b"]).length < (["a", "b"] : List String).length) ∧
    ((∀ e ∈ ([(["a", "b"], 1)] : Vocab), ∀ s ∈ e.1, s ≠ "") ∧
      countOf ("a", "b") (get_pair_frequencies
        (merge_pair [(["a", "b"], 1)] ("a", "b"))) = 0) :=
  ⟨⟨by decide, (claim_C6_theorem [(["a", "b"], 1)] ("a", "b")).2.1 ["a", "b"] (by decide)⟩,
   ⟨by decide, (claim_C6_theorem [(["a", "b"], 1)] ("a", "b")).2.2 (by decide)⟩⟩

theorem hasMarker_mono (c : Char) (l : List Char) (h : hasMarker l = true) :
    hasMarker (c :: l) = true := by
  by_cases hm : c = '<' ∧ ∃ rest, l = '/' :: 'w' :: '>' :: rest
  · obtain ⟨hc, rest, hrest⟩ := hm
    subst hc
    subst hrest
    rfl
  · rw [hasMarker.eq_2 c l (fun rest hc hl => hm ⟨hc, ⟨rest, hl⟩⟩)]
    exact h

theorem hasMarker_append_right (t s : List Char) (h : hasMarker t = true) :
    hasMarker (t ++ s) = true := by
  induction t using hasMarker.induct with
  | case1 rest => rfl
  | case2 c cs hside ih =>
    rw [hasMarker.eq_2 c cs hside] at h
    exact hasMarker_mono c (cs ++ s) (ih h)
  | case3 => exact absurd h (by decide)

theorem hasMarker_append_left (t s : List Char) (h : hasMarker s = true) :
    hasMarker (t ++ s) = true := by
  induction t with
  | nil => exact h
  | cons c t ih => exact hasMarker_mono c (t ++ s) ih

theorem hasMarker_infix_false (u m v : List Char)
    (h : hasMarker (u ++ m ++ v) = false) : hasMarker m = false := by
  by_contra hm
  have h0 : hasMarker m = true := by revert hm; cases hasMarker m <;> simp
  have h2 : hasMarker (u ++ (m ++ v)) = true :=
    hasMarker_append_left u _ (hasMarker_append_right m v h0)
  rw [List.append_assoc] at h
  rw [h] at h2
  exact Bool.noConfusion h2

theorem pyReplaceMarker_no_marker (l : List Char) (h : hasMarker l = false) :
    pyReplaceMarker l = l := by
  induction l using pyReplaceMarker.induct with
  | case1 rest ih => simp [hasMarker] at h
  | case2 c cs hside ih =>
    rw [hasMarker.eq_2 c cs hside] at h
    rw [pyReplaceMarker.eq_2 c cs hside, ih h]
  | case3 => rfl

theorem pyReplaceMarker_append_marker (w : List Char) (h : hasMarker w = false) :
    pyReplaceMarker (w ++ markerL) = w ++ [' '] := by
  induction w using pyReplaceMarker.induct with
  | case1 rest ih => simp [hasMarker] at h
  | case2 c cs hside ih =>
    rw [hasMarker.eq_2 c cs hside] at h
    have hside2 : ∀ rest, c = '<' → cs ++ markerL = '/' :: 'w' :: '>' :: rest → False := by
      intro rest hc hcs
      rcases cs with _ | ⟨c1, _ | ⟨c2, _ | ⟨c3, cs3⟩⟩⟩
      · simp [markerL] at hcs
      · simp [markerL] at hcs
      · simp [markerL] at hcs
      · simp only [markerL, List.cons_append, List.cons.injEq] at hcs
        exact hside cs3 hc (by rw [hcs.1, hcs.2.1, hcs.2.2.1])
    rw [List.cons_append, pyReplaceMarker.eq_2 c (cs ++ markerL) hside2, ih h]
    rfl
  | case3 => rfl

theorem pyReplaceMarker_cons_src (cs : List Char) (d : Char) (tl : List Char)
    (hdn : d ≠ ' ') (h : pyReplaceMarker cs = d :: tl) :
    ∃ cs2, cs = d :: cs2 ∧ pyReplaceMarker cs2 = tl := by
  induction cs using pyReplaceMarker.induct with
  | case1 rest ih =>
    rw [pyReplaceMarker.eq_1] at h
    injection h with h1 h2
    exact absurd h1.symm hdn
  | case2 c cs2 hside ih =>
    rw [pyReplaceMarker.eq_2 c cs2 hside] at h
    injection h with h1 h2
    exact ⟨cs2, by rw [h1], h2⟩
  | case3 => simp [pyReplaceMarker] at h

theorem pyReplaceMarker_no_marker_result (l : List Char) :
    hasMarker (pyReplaceMarker l) = false := by
  induction l using pyReplaceMarker.induct with
  | case1 rest ih =>
    rw [pyReplaceMarker.eq_1]
    rw [hasMarker.eq_2 ' ' _ (fun rest2 hc _ => absurd hc (by decide))]
    exact ih
  | case2 c cs hside ih =>
    rw [pyReplaceMarker.eq_2 c cs hside]
    by_cases hm : c = '<' ∧ ∃ rest2, pyReplaceMarker cs = '/' :: 'w' :: '>' :: rest2
    · obtain ⟨hc, rest2, hr⟩ := hm
      obtain ⟨cs2, hcs2, h2⟩ := pyReplaceMarker_cons_src cs '/' _ (by decide) hr
      obtain ⟨cs3, hcs3, h3⟩ := pyReplaceMarker_cons_src cs2 'w' _ (by decide) h2
      obtain ⟨cs4, hcs4, h4⟩ := pyReplaceMarker_cons_src cs3 '>' _ (by decide) h3
      exact (hside cs4 hc (by rw [hcs2, hcs3, hcs4])).elim
    · rw [hasMarker.eq_2 c _ (fun rest2 hc hr => hm ⟨hc, rest2, hr⟩)]
      exact ih
  | case3 => rfl

theorem dropWhile_head_false (p : α → Bool) :
    ∀ (l : List α) (a : α), (l.dropWhile p).head? = some a → p a = false := by
  intro l
  induction l with
  | nil => intro a h; simp at h
  | cons c cs ih =>
    intro a h
    rw [List.dropWhile_cons] at h
    split at h
    · exact ih a h
    · rename_i hc
      simp only [List.head?_cons, Option.some.injEq] at h
      rw [← h]
      cases hb : p c
      · rfl
      · exact absurd hb hc

theorem dropWhile_eq_self_of_head (p : α → Bool) (l : List α)
    (h : ∀ a, l.head? = some a → p a = false) : l.dropWhile p = l := by
  cases l with
  | nil => rfl
  | cons c cs =>
    rw [List.dropWhile_cons, if_neg]
    simp [h c rfl]

theorem strip_of_clean (m : List Char)
    (h1 : ∀ a, m.head? = some a → Char.isWhitespace a = false)
    (h2 : ∀ a, m.getLast? = some a → Char.isWhitespace a = false) :
    pyStrip m = m := by
  unfold pyStrip
  rw [dropWhile_eq_self_of_head _ m h1]
  rw [dropWhile_eq_self_of_head _ m.reverse
    (fun a ha => h2 a (by rwa [List.head?_reverse] at ha))]
  exact List.reverse_reverse m

theorem pyStrip_clean_edges (l : List Char) :
    (∀ a, (pyStrip l).head? = some a → Char.isWhitespace a = false) ∧
    (∀ a, (pyStrip l).getLast? = some a → Char.isWhitespace a = false) := by
  constructor
  · intro a ha
    unfold pyStrip at ha
    rw [List.head?_reverse] at ha
    have hne : (l.dropWhile Char.isWhitespace).reverse.dropWhile Char.isWhitespace ≠ [] := by
      intro hx
      rw [hx] at ha
      simp at ha
    have hsuf : ∃ t, t ++ (l.dropWhile Char.isWhitespace).reverse.dropWhile Char.isWhitespace =
        (l.dropWhile Char.isWhitespace).reverse := List.dropWhile_suffix _
    obtain ⟨t2, ht2⟩ := hsuf
    have h3 : ((l.dropWhile Char.isWhitespace).reverse).getLast? = some a := by
      rw [← ht2, List.getLast?_append_of_ne_nil t2 hne]
      exact ha
    rw [List.getLast?_reverse] at h3
    exact dropWhile_head_false _ l a h3
  · intro a ha
    unfold pyStrip at ha
    rw [List.getLast?_reverse] at ha
    exact dropWhile_head_false _ _ a ha

theorem pyStrip_idem (l : List Char) : pyStrip (pyStrip l) = pyStrip l :=
  strip_of_clean _ (pyStrip_clean_edges l).1 (pyStrip_clean_edges l).2

theorem pyStrip_decomp (l : List Char) : ∃ u v, l = u ++ pyStrip l ++ v := by
  have h1 : ∃ t1, t1 ++ l.dropWhile Char.isWhitespace = l := List.dropWhile_suffix _
  obtain ⟨t1, ht1⟩ := h1
  have h2 : ∃ t2, t2 ++ (l.dropWhile Char.isWhitespace).reverse.dropWhile Char.isWhitespace =
      (l.dropWhile Char.isWhitespace).reverse := List.dropWhile_suffix _
  obtain ⟨t2, ht2⟩ := h2
  refine ⟨t1, t2.reverse, ?_⟩
  have h3 := congrArg List.reverse ht2
  rw [List.reverse_append, List.reverse_reverse] at h3
  calc l = t1 ++ l.dropWhile Char.isWhitespace := ht1.symm
    _ = t1 ++ (pyStrip l ++ t2.reverse) := by
      rw [← h3]
      rfl
    _ = t1 ++ pyStrip l ++ t2.reverse := (List.append_assoc _ _ _).symm

theorem hasMarker_pyStrip (l : List Char) (h : hasMarker l = false) :
    hasMarker (pyStrip l) = false := by
  obtain ⟨u, v, huv⟩ := pyStrip_decomp l
  apply hasMarker_infix_false u _ v
  rw [← huv]
  exact h

theorem nth_append_left (l1 l2 : List α) :
    ∀ k : Nat, k < l1.length → nth (l1 ++ l2) k = nth l1 k := by
  induction l1 with
  | nil => intro k h; simp at h
  | cons a t ih =>
    intro k h
    cases k with
    | zero => rfl
    | succ k2 => exact ih k2 (by simpa using h)

theorem nth_eq_none (l : List α) : ∀ k : Nat, l.length ≤ k → nth l k = none := by
  induction l with
  | nil => intro k _; cases k <;> rfl
  | cons a t ih =>
    intro k h
    cases k with
    | zero => simp at h
    | succ k2 => exact ih k2 (by simpa using h)

theorem token2idGetAux_none_of_not_mem (l : List String) (s : String) :
    s ∉ l → ∀ i, token2idGetAux l s i = none := by
  induction l with
  | nil => intro _ i; rfl
  | cons t ts ih =>
    intro hs i
    have h1 : token2idGetAux ts s (i + 1) = none :=
      ih (fun h => hs (List.mem_cons_of_mem _ h)) (i + 1)
    have h2 : t ≠ s := fun h => hs (h ▸ List.mem_cons_self _ _)
    simp [token2idGetAux, h1, h2]

theorem token2idGetAux_append_right_none (l1 l2 : List String) (s : String)
    (h : ∀ j, token2idGetAux l2 s j = none) :
    ∀ i, token2idGetAux (l1 ++ l2) s i = token2idGetAux l1 s i := by
  induction l1 with
  | nil => intro i; simp [token2idGetAux, h i]
  | cons t ts ih =>
    intro i
    show token2idGetAux (t :: (ts ++ l2)) s i = _
    unfold token2idGetAux
    rw [ih (i + 1)]

theorem token2idGetAux_some (l : List String) (s : String) :
    ∀ (i j : Nat), token2idGetAux l s i = some j →
      i ≤ j ∧ j - i < l.length ∧ nth l (j - i) = some s := by
  induction l with
  | nil => intro i j h; exact absurd h (by simp [token2idGetAux])
  | cons t ts ih =>
    intro i j h
    unfold token2idGetAux at h
    cases haux : token2idGetAux ts s (i + 1) with
    | some j2 =>
      rw [haux] at h
      simp only [Option.some.injEq] at h
      obtain ⟨h1, h2, h3⟩ := ih (i + 1) j2 haux
      subst h
      refine ⟨by omega, by simp only [List.length_cons]; omega, ?_⟩
      have hk : j2 - i = (j2 - (i + 1)) + 1 := by omega
      rw [hk]
      exact h3
    | none =>
      rw [haux] at h
      by_cases ht : t = s
      · simp only [ht, if_true] at h
        simp only [Option.some.injEq] at h
        subst h
        refine ⟨le_refl i, by simp, ?_⟩
        rw [Nat.sub_self]
        rw [← ht]
        rfl
      · simp [ht] at h

theorem token2idGetAux_isSome_of_mem (l : List String) (s : String) (hs : s ∈ l) :
    ∀ i : Nat, (token2idGetAux l s i).isSome := by
  induction l with
  | nil => simp at hs
  | cons t ts ih =>
    intro i
    unfold token2idGetAux
    cases haux : token2idGetAux ts s (i + 1) with
    | some j => simp [haux]
    | none =>
      rcases List.mem_cons.mp hs with h | h
      · have ht : t = s := h.symm
        simp [haux, ht]
      · have h2 := ih h (i + 1)
        rw [haux] at h2
        simp at h2

theorem token2idGet_mem (tl : List String) (s : String) (hs : s ∈ tl) :
    ∃ j : Nat, token2idGet tl s = some (Int.ofNat j) ∧ j < tl.length ∧
      nth tl j = some s := by
  have h1 := token2idGetAux_isSome_of_mem tl s hs 0
  obtain ⟨j, hj⟩ := Option.isSome_iff_exists.mp h1
  obtain ⟨_, h2, h3⟩ := token2idGetAux_some tl s 0 j hj
  exact ⟨j, by simp [token2idGet, hj], by simpa using h2, by simpa using h3⟩

theorem unk_not_mem_sorted_rest (v : Vocab) :
    "<unk>" ∉ pySorted (((symbolsOf v).dedup).filter
      (fun s => decide (s ∉ SPECIAL_TOKENS))) := by
  intro h
  rw [mem_pySorted] at h
  have h1 := List.mem_filter.mp h
  exact (of_decide_eq_true h1.2) (by decide)

theorem token_unk_id (v : Vocab) :
    token2idGet (buildTokenList v) "<unk>" = some 1 ∧
    nth (buildTokenList v) 1 = some "<unk>" := by
  constructor
  · unfold token2idGet buildTokenList
    rw [token2idGetAux_append_right_none SPECIAL_TOKENS _ "<unk>"
      (token2idGetAux_none_of_not_mem _ _ (unk_not_mem_sorted_rest v)) 0]
    rfl
  · unfold buildTokenList
    rw [nth_append_left _ _ 1 (by decide)]
    rfl

theorem decode_unk (tl : List String) (h : nth tl 1 = some "<unk>") :
    decode tl [some 1] = "<unk>" := by
  have h1 : id2tokenGet tl (some 1) = "<unk>" := by
    show (if (0 : Int) ≤ 1 then (nth tl (1 : Int).toNat).getD "<unk>" else "<unk>") = "<unk>"
    rw [if_pos (by decide : (0 : Int) ≤ 1)]
    rw [show (1 : Int).toNat = 1 from rfl, h]
    rfl
  unfold decode
  rw [show ([some 1].map (id2tokenGet tl)) = [id2tokenGet tl (some 1)] from rfl, h1]
  rfl

/-- C7: decode is total on every id sequence (its value is the stated
strip-replace-join composition): an id with no inverse mapping (None,
negative, or out of range) contributes the unknown-token symbol, the
end-of-word marker never survives the replacement (every occurrence
becomes a space), and the result is trimmed (stripping it again changes
nothing). -/
theorem claim_C7_theorem : ∀ (tokenList : List String) (ids : List (Option Int)),
    (decode tokenList ids).data =
      pyStrip (pyReplaceMarker
        (((ids.map (id2tokenGet tokenList)).map String.data).flatten)) ∧
    (∀ oi ∈ ids, idValid tokenList oi = false → id2tokenGet tokenList oi = "<unk>") ∧
    hasMarker (decode tokenList ids).data = false ∧
    pyStrip (decode tokenList ids).data = (decode tokenList ids).data := by
  intro tl ids
  refine ⟨rfl, ?_, ?_, ?_⟩
  · intro oi _ hv
    match oi with
    | none => rfl
    | some n =>
      show (if 0 ≤ n then (nth tl n.toNat).getD "<unk>" else "<unk>") = "<unk>"
      by_cases h0 : (0 : Int) ≤ n
      · rw [if_pos h0]
        have h2 : ¬ (n.toNat < tl.length) := by
          intro hlt
          rw [show idValid tl (some n) =
            (decide (0 ≤ n) && decide (n.toNat < tl.length)) from rfl] at hv
          simp [h0, hlt] at hv
        rw [nth_eq_none tl n.toNat (Nat.le_of_not_lt h2)]
        rfl
      · rw [if_neg h0]
  · show hasMarker (pyStrip (pyReplaceMarker _)) = false
    exact hasMarker_pyStrip _ (pyReplaceMarker_no_marker_result _)
  · show pyStrip (pyStrip _) = pyStrip _
    exact pyStrip_idem _

theorem claim_C7_witness :
    idValid SPECIAL_TOKENS (some 7) = false ∧
    id2tokenGet SPECIAL_TOKENS (some 7) = "<unk>" :=
  ⟨by decide, (claim_C7_theorem SPECIAL_TOKENS [some 7]).2.1 (some 7)
    (List.mem_singleton.mpr rfl) (by decide)⟩

/-- C8 (counterexample): for the model trained on the empty corpus,
id('<unk>') = 1 and decode([1]) = "<unk>", which is not the empty string
claimed by the specification. -/
theorem claim_C8_counterexample :
    train_bpe [] 0 = ([], SPECIAL_TOKENS) ∧
    token2idGet SPECIAL_TOKENS "<unk>" = some 1 ∧
    decode SPECIAL_TOKENS [some 1] = "<unk>" ∧ "<unk>" ≠ "" :=
  ⟨by decide, by decide, by decide, by decide⟩

/-- C8 (amended): for every model trained by train_bpe the id of the
unknown token is 1, and decode applied to [id('<unk>')] returns the
literal string "<unk>" (the marker replacement and the trim leave it
unchanged), not the empty string. -/
theorem claim_C8_theorem : ∀ (corpus : List String) (n : Int),
    token2idGet (train_bpe corpus n).2 "<unk>" = some 1 ∧
    decode (train_bpe corpus n).2 [some 1] = "<unk>" := by
  intro corpus n
  have hb : (train_bpe corpus n).2 =
      buildTokenList (trainLoop (get_vocab_from_corpus corpus) n.toNat).2 := by
    simp [train_bpe]
  have h := token_unk_id (trainLoop (get_vocab_from_corpus corpus) n.toNat).2
  rw [hb]
  exact ⟨h.1, decode_unk _ h.2⟩

theorem encodeLoop_nil_merges (syms : List String) : encodeLoop [] syms = syms :=
  encodeLoop_eq_of_cands_nil [] syms (by simp [candsOf])

/-- C3: word encoding starts from the character sequence plus the
end-of-word marker; while some adjacent pair is a learned merge, the loop
applies, among the occurring pairs, one of minimal rank (the earliest
learned) with a single greedy left-to-right non-overlapping pass, and it
stops exactly when no adjacent pair matches any learned rule (the result
is a fixpoint with no remaining candidates). -/
theorem claim_C3_theorem : ∀ (merges : List (String × String)) (w : List Char),
    encode_word_syms merges w =
      encodeLoop merges (w.map (fun c => String.mk [c]) ++ [eowMarker]) ∧
    (∀ syms : List String, candsOf merges syms = [] → encodeLoop merges syms = syms) ∧
    (∀ (syms : List String) (c : String × String) (cs : List (String × String)),
      candsOf merges syms = c :: cs →
        encodeLoop merges syms =
          encodeLoop merges (applyMergePass (minByRank merges c cs) syms) ∧
        minByRank merges c cs ∈ c :: cs ∧
        (∀ q ∈ c :: cs, rankIn merges (minByRank merges c cs) ≤ rankIn merges q)) ∧
    (∀ syms : List String, candsOf merges (encodeLoop merges syms) = []) := by
  intro merges w
  refine ⟨rfl, encodeLoop_eq_of_cands_nil merges, ?_, encodeLoop_fixpoint merges⟩
  intro syms c cs h
  exact ⟨encodeLoop_eq_of_cands_cons merges syms c cs h,
    (minByRank_spec merges cs c).1, (minByRank_spec merges cs c).2⟩

theorem claim_C3_witness :
    candsOf [("a", "</w>")] ["a", "</w>"] = [("a", "</w>")] ∧
    encodeLoop [("a", "</w>")] ["a", "</w>"] =
      encodeLoop [("a", "</w>")]
        (applyMergePass (minByRank [("a", "</w>")] ("a", "</w>") []) ["a", "</w>"]) ∧
    candsOf [] (encodeLoop [] ["a", "</w>"]) = [] :=
  ⟨by decide,
   ((claim_C3_theorem [("a", "</w>")] []).2.2.1 ["a", "</w>"] ("a", "</w>") []
     (by decide)).1,
   (claim_C3_theorem [] []).2.2.2 ["a", "</w>"]⟩

/-- C9: every iteration of the inner merge loop applies a pass for an
occurring pair and therefore strictly decreases the length of the symbol
sequence; hence the loop terminates, and the fuel-indexed loop with fuel
equal to the sequence length already agrees with it (encode is total). -/
theorem claim_C9_theorem :
    (∀ (p : String × String) (l : List String),
      p ∈ pairsOf l → (applyMergePass p l).length < l.length) ∧
    (∀ (merges : List (String × String)) (syms : List String),
      encodeLoopFuel merges syms.length syms = encodeLoop merges syms) :=
  ⟨fun p l h => applyMergePass_length_lt p l h,
   fun merges syms => encodeLoopFuel_eq merges syms.length syms le_rfl⟩

theorem claim_C9_witness :
    (("x", "y") ∈ pairsOf ["x", "y", "z"]) ∧
    (applyMergePass ("x", "y") ["x", "y", "z"]).length <
      (["x", "y", "z"] : List String).length :=
  ⟨by decide, claim_C9_theorem.1 ("x", "y") ["x", "y", "z"] (by decide)⟩

theorem mem_foldl_append (f : β → List α) :
    ∀ (l : List β) (acc : List α) (x : α),
      x ∈ l.foldl (fun a b => a ++ f b) acc → x ∈ acc ∨ ∃ b ∈ l, x ∈ f b := by
  intro l
  induction l with
  | nil => intro acc x h; exact Or.inl h
  | cons b l ih =>
    intro acc x h
    rcases ih (acc ++ f b) x h with h1 | ⟨b2, hb2, hx⟩
    · rcases List.mem_append.mp h1 with h2 | h2
      · exact Or.inl h2
      · exact Or.inr ⟨b, List.mem_cons_self _ _, h2⟩
    · exact Or.inr ⟨b2, List.mem_cons_of_mem _ hb2, hx⟩

theorem token2idGet_bound (tl : List String) (s : String) (x : Int)
    (h : token2idGet tl s = some x) :
    ∃ j : Nat, x = Int.ofNat j ∧ j < tl.length := by
  unfold token2idGet at h
  cases haux : token2idGetAux tl s 0 with
  | none =>
    rw [haux] at h
    exact Option.noConfusion h
  | some j =>
    rw [haux] at h
    have hx : Int.ofNat j = x := by simpa using h
    obtain ⟨_, h2, _⟩ := token2idGetAux_some tl s 0 j haux
    exact ⟨j, hx.symm, by simpa using h2⟩

theorem encode_word_elem_bound (merges : List (String × String))
    (tl : List String) (w : List Char) (hunk : "<unk>" ∈ tl) :
    ∀ oi ∈ encode_word merges tl w,
      ∃ j : Nat, oi = some (Int.ofNat j) ∧ j < tl.length := by
  intro oi hoi
  unfold encode_word at hoi
  obtain ⟨s, _, heq⟩ := List.mem_map.mp hoi
  obtain ⟨u, hu1, hu2, _⟩ := token2idGet_mem tl "<unk>" hunk
  cases hg : token2idGet tl s with
  | none =>
    refine ⟨u, ?_, hu2⟩
    rw [← heq]
    simp [Option.orElse, hg, hu1]
  | some x =>
    obtain ⟨j, hx, hj⟩ := token2idGet_bound tl s x hg
    refine ⟨j, ?_, hj⟩
    rw [← heq]
    simp [Option.orElse, hg, hx]

/-- C10: whenever the vocabulary contains the key "<unk>", every element
of encode(text, add_special := false) is an actual id of the model (some
position of the token list); absent symbols fall back to the id of
"<unk>", so no non-id placeholder ever appears. -/
theorem claim_C10_theorem : ∀ (merges : List (String × String))
    (tokenList : List String) (text : String),
    "<unk>" ∈ tokenList →
    ∀ oi ∈ encode merges tokenList text false,
      ∃ j : Nat, oi = some (Int.ofNat j) ∧ j < tokenList.length := by
  intro merges tl text hunk oi hoi
  have hoi2 : oi ∈ (splitSpace (normalize_text text).data).foldl
      (fun acc w => acc ++ encode_word merges tl w) [] := hoi
  rcases mem_foldl_append _ _ _ _ hoi2 with h | ⟨w, _, hw⟩
  · simp at h
  · exact encode_word_elem_bound merges tl w hunk oi hw

theorem claim_C10_witness :
    ("<unk>" ∈ SPECIAL_TOKENS) ∧
    (∃ j : Nat, (some (1 : Int) : Option Int) = some (Int.ofNat j) ∧
      j < SPECIAL_TOKENS.length) := by
  have hw : encode_word [] SPECIAL_TOKENS ['a'] = [some 1] := by
    unfold encode_word encode_word_syms
    rw [encodeLoop_nil_merges]
    decide
  have he : encode [] SPECIAL_TOKENS "a" false = [some 1] := by
    show (splitSpace (normalize_text "a").data).foldl
      (fun acc w => acc ++ encode_word [] SPECIAL_TOKENS w) [] = [some 1]
    rw [show splitSpace (normalize_text "a").data = [['a']] from rfl]
    rw [List.foldl_cons, List.foldl_nil, hw]
    rfl
  refine ⟨by decide, claim_C10_theorem [] SPECIAL_TOKENS "a" (by decide) (some 1) ?_⟩
  rw [he]
  exact List.mem_singleton.mpr rfl

theorem joinS_cons (s : String) (l : List String) :
    joinS (s :: l) = s.data ++ joinS l := rfl

theorem joinS_append (a b : List String) : joinS (a ++ b) = joinS a ++ joinS b := by
  unfold joinS
  rw [List.map_append, List.flatten_append]

theorem joinS_applyMergePass (p : String × String) :
    ∀ l : List String, joinS (applyMergePass p l) = joinS l := by
  intro l
  induction l using applyMergePass.induct p with
  | case1 x y rest h ih =>
    rw [applyMergePass_cons_pos p x y rest h]
    rw [joinS_cons, joinS_cons, joinS_cons, ih]
    rw [String.data_append, h.1, h.2, List.append_assoc]
  | case2 x y rest h ih =>
    rw [applyMergePass_cons_neg p x y rest h]
    rw [joinS_cons, joinS_cons, ih]
  | case3 l h =>
    cases l with
    | nil => rfl
    | cons a t =>
      cases t with
      | nil => rfl
      | cons b r => exact absurd rfl (h a b r)

theorem joinS_encodeLoop (merges : List (String × String)) :
    ∀ syms : List String, joinS (encodeLoop merges syms) = joinS syms := by
  suffices h : ∀ (n : Nat) (syms : List String), syms.length ≤ n →
      joinS (encodeLoop merges syms) = joinS syms by
    intro syms
    exact h syms.length syms le_rfl
  intro n
  induction n with
  | zero =>
    intro syms hlen
    have : syms = [] := List.eq_nil_of_length_eq_zero (Nat.le_zero.mp hlen)
    subst this
    rw [encodeLoop_eq_of_cands_nil merges [] rfl]
  | succ n ih =>
    intro syms hlen
    match h : candsOf merges syms with
    | [] => rw [encodeLoop_eq_of_cands_nil merges syms h]
    | c :: cs =>
      rw [encodeLoop_eq_of_cands_cons merges syms c cs h]
      have hmem : minByRank merges c cs ∈ candsOf merges syms :=
        h ▸ (minByRank_spec merges cs c).1
      have hlt := applyMergePass_length_lt _ _ (candsOf_sub merges syms _ hmem).1
      rw [ih _ (by omega), joinS_applyMergePass]

theorem applyMergePass_last_struct (p : String × String) :
    ∀ (n : Nat) (l : List String) (z : String), l.length ≤ n →
      ∃ (l2 : List String) (z2 : String) (t : List Char),
        applyMergePass p (l ++ [z]) = l2 ++ [z2] ∧ z2.data = t ++ z.data := by
  intro n
  induction n with
  | zero =>
    intro l z hlen
    have : l = [] := List.eq_nil_of_length_eq_zero (Nat.le_zero.mp hlen)
    subst this
    exact ⟨[], z, [], rfl, rfl⟩
  | succ n ih =>
    intro l z hlen
    match l with
    | [] => exact ⟨[], z, [], rfl, rfl⟩
    | [x] =>
      by_cases h : x = p.1 ∧ z = p.2
      · refine ⟨[], p.1 ++ p.2, p.1.data, ?_, ?_⟩
        · rw [show ([x] ++ [z] : List String) = x :: z :: [] from rfl]
          rw [applyMergePass_cons_pos p x z [] h]
          rfl
        · rw [String.data_append, h.2]
      · refine ⟨[x], z, [], ?_, rfl⟩
        rw [show ([x] ++ [z] : List String) = x :: z :: [] from rfl]
        rw [applyMergePass_cons_neg p x z [] h]
        rfl
    | x :: y :: l2 =>
      by_cases h : x = p.1 ∧ y = p.2
      · obtain ⟨l3, z3, t, h1, h2⟩ := ih l2 z (by simp at hlen; omega)
        refine ⟨(p.1 ++ p.2) :: l3, z3, t, ?_, h2⟩
        rw [show ((x :: y :: l2) ++ [z] : List String) = x :: y :: (l2 ++ [z]) from rfl]
        rw [applyMergePass_cons_pos p x y (l2 ++ [z]) h, h1]
        rfl
      · obtain ⟨l3, z3, t, h1, h2⟩ := ih (y :: l2) z (by simp at hlen ⊢; omega)
        refine ⟨x :: l3, z3, t, ?_, h2⟩
        rw [show ((x :: y :: l2) ++ [z] : List String) = x :: y :: (l2 ++ [z]) from rfl]
        rw [applyMergePass_cons_neg p x y (l2 ++ [z]) h]
        rw [show ((y :: l2) ++ [z] : List String) = y :: (l2 ++ [z]) from rfl] at h1
        rw [h1]
        rfl

theorem encodeLoop_last_struct (merges : List (String × String)) :
    ∀ (n : Nat) (l : List String) (z : String), (l ++ [z]).length ≤ n →
      ∃ (l2 : List String) (z2 : String) (t : List Char),
        encodeLoop merges (l ++ [z]) = l2 ++ [z2] ∧ z2.data = t ++ z.data := by
  intro n
  induction n with
  | zero =>
    intro l z hlen
    simp at hlen
  | succ n ih =>
    intro l z hlen
    match h : candsOf merges (l ++ [z]) with
    | [] =>
      rw [encodeLoop_eq_of_cands_nil merges _ h]
      exact ⟨l, z, [], rfl, rfl⟩
    | c :: cs =>
      rw [encodeLoop_eq_of_cands_cons merges _ c cs h]
      have hmem : minByRank merges c cs ∈ candsOf merges (l ++ [z]) :=
        h ▸ (minByRank_spec merges cs c).1
      have hlt := applyMergePass_length_lt _ _ (candsOf_sub merges _ _ hmem).1
      obtain ⟨l2, z2, t, h1, h2⟩ :=
        applyMergePass_last_struct (minByRank merges c cs) l.length l z le_rfl
      rw [h1]
      have hlen2 : (l2 ++ [z2]).length ≤ n := by
        rw [← h1]
        have := hlt
        omega
      obtain ⟨l3, z3, t2, h3, h4⟩ := ih l2 z2 hlen2
      refine ⟨l3, z3, t2 ++ t, h3, ?_⟩
      rw [h4, h2, List.append_assoc]

theorem joinS_map_singleton (w : List Char) :
    joinS (w.map (fun c => String.mk [c])) = w := by
  induction w with
  | nil => rfl
  | cons c cs ih =>
    rw [List.map_cons, joinS_cons, ih]
    rfl

theorem joinS_shapeOf (w : List Char) : joinS (shapeOf w) = w ++ markerL := by
  unfold shapeOf
  rw [joinS_append, joinS_map_singleton]
  rfl

theorem joinS_mem_decomp (L : List String) (s : String) (hs : s ∈ L) :
    ∃ u v, joinS L = u ++ s.data ++ v := by
  induction L with
  | nil => simp at hs
  | cons a L ih =>
    rcases List.mem_cons.mp hs with rfl | h
    · exact ⟨[], joinS L, by rw [joinS_cons]; rfl⟩
    · obtain ⟨u, v, huv⟩ := ih h
      exact ⟨a.data ++ u, v, by rw [joinS_cons, huv]; simp [List.append_assoc]⟩

theorem roundtrip_sym (tl : List String) (s : String) (hs : s ∈ tl) :
    id2tokenGet tl ((token2idGet tl s).orElse (fun _ => token2idGet tl "<unk>")) = s := by
  obtain ⟨j, hj, _, hnth⟩ := token2idGet_mem tl s hs
  rw [hj]
  show (if 0 ≤ (Int.ofNat j : Int) then (nth tl (Int.ofNat j).toNat).getD "<unk>" else "<unk>") = s
  split
  · rw [show (Int.ofNat j).toNat = j from rfl, hnth]
    rfl
  · rename_i h0
    exact absurd (Int.ofNat_nonneg j) h0

theorem map_roundtrip (tl : List String) (F : List String)
    (hF : ∀ s ∈ F, s ∈ tl) :
    (F.map (fun s => (token2idGet tl s).orElse (fun _ => token2idGet tl "<unk>"))).map
      (id2tokenGet tl) = F := by
  induction F with
  | nil => rfl
  | cons s F ih =>
    simp only [List.map_cons]
    rw [roundtrip_sym tl s (hF s (List.mem_cons_self _ _))]
    rw [ih (fun s2 hs2 => hF s2 (List.mem_cons_of_mem _ hs2))]

theorem decode_of_syms (tl : List String) (F : List String)
    (hF : ∀ s ∈ F, s ∈ tl) :
    decode tl (F.map (fun s => (token2idGet tl s).orElse (fun _ => token2idGet tl "<unk>"))) =
      ⟨pyStrip (pyReplaceMarker (joinS F))⟩ := by
  unfold decode
  rw [map_roundtrip tl F hF]
  rfl

theorem pyStrip_noWs (w : List Char) (hw : ∀ c ∈ w, c.isWhitespace = false) :
    pyStrip w = w := by
  apply strip_of_clean
  · intro a ha
    exact hw a (List.mem_of_mem_head? ha)
  · intro a ha
    rw [← List.head?_reverse] at ha
    exact hw a (List.mem_reverse.mp (List.mem_of_mem_head? ha))

theorem pyStrip_append_space (w : List Char) (hw : ∀ c ∈ w, c.isWhitespace = false) :
    pyStrip (w ++ [' ']) = w := by
  cases w with
  | nil => rfl
  | cons c cs =>
    unfold pyStrip
    rw [show ((c :: cs) ++ [' '] : List Char) = c :: (cs ++ [' ']) from rfl]
    rw [List.dropWhile_cons, if_neg (by simp [hw c (List.mem_cons_self _ _)])]
    rw [show (c :: (cs ++ [' ']) : List Char) = (c :: cs) ++ [' '] from rfl]
    rw [List.reverse_append]
    rw [show (([' '] : List Char).reverse ++ (c :: cs).reverse) =
      ' ' :: (c :: cs).reverse from rfl]
    rw [List.dropWhile_cons, if_pos (by decide)]
    rw [dropWhile_eq_self_of_head _ (c :: cs).reverse
      (fun a ha => hw a (List.mem_reverse.mp (List.mem_of_mem_head? ha)))]
    exact List.reverse_reverse (c :: cs)

theorem collapseWsAux_noWs (w : List Char) (hw : ∀ c ∈ w, c.isWhitespace = false) :
    ∀ b : Bool, collapseWsAux b w = w := by
  induction w with
  | nil => intro b; rfl
  | cons c cs ih =>
    intro b
    unfold collapseWsAux
    rw [if_neg (by simp [hw c (List.mem_cons_self _ _)])]
    rw [ih (fun c2 hc2 => hw c2 (List.mem_cons_of_mem _ hc2)) false]

theorem normalize_noWs (w : List Char) (hw : ∀ c ∈ w, c.isWhitespace = false) :
    normalize_text (String.mk w) = String.mk w := by
  unfold normalize_text collapseWs
  rw [show (String.mk w).data = w from rfl]
  rw [collapseWsAux_noWs w hw false, pyStrip_noWs w hw]

theorem splitSpace_single (w : List Char) (hw : ∀ c ∈ w, c ≠ ' ') :
    splitSpace w = [w] := by
  induction w with
  | nil => rfl
  | cons c cs ih =>
    unfold splitSpace
    rw [if_neg (hw c (List.mem_cons_self _ _))]
    rw [ih (fun c2 hc2 => hw c2 (List.mem_cons_of_mem _ hc2))]

theorem encode_single_word (merges : List (String × String)) (tl : List String)
    (w : List Char) (hw : ∀ c ∈ w, c.isWhitespace = false) :
    encode merges tl (String.mk w) false = encode_word merges tl w := by
  show (splitSpace (normalize_text (String.mk w)).data).foldl
      (fun acc w2 => acc ++ encode_word merges tl w2) [] = _
  rw [normalize_noWs w hw]
  rw [show (String.mk w).data = w from rfl]
  rw [splitSpace_single w (fun c hc hsp => by
    have := hw c hc
    rw [hsp] at this
    exact absurd this (by decide))]
  rw [List.foldl_cons, List.foldl_nil]
  exact List.nil_append _

/-- C1 (counterexample): the round-trip law fails.  Train on ["a b"] with
zero merges: every non-space character of the text is in the vocabulary
and no unknown fallback is triggered (the encoding is [some 6, some 7]),
yet decode(encode("a b", add_special := False)) = "ab", not the
normalized text "a b": the bare end-of-word markers are dropped by
_encode_word, so the word boundary is lost. -/
theorem claim_C1_counterexample :
    train_bpe ["a b"] 0 =
      ([], ["<pad>", "<unk>", "<s>", "</s>", "<mask>", "</w>", "a", "b"]) ∧
    normalize_text "a b" = "a b" ∧
    encode [] ["<pad>", "<unk>", "<s>", "</s>", "<mask>", "</w>", "a", "b"]
      "a b" false = [some 6, some 7] ∧
    ("a" ∈ (["<pad>", "<unk>", "<s>", "</s>", "<mask>", "</w>", "a", "b"] : List String) ∧
     "b" ∈ (["<pad>", "<unk>", "<s>", "</s>", "<mask>", "</w>", "a", "b"] : List String)) ∧
    decode ["<pad>", "<unk>", "<s>", "</s>", "<mask>", "</w>", "a", "b"]
      [some 6, some 7] = "ab" ∧
    ("ab" : String) ≠ "a b" := by
  have hw1 : encode_word []
      ["<pad>", "<unk>", "<s>", "</s>", "<mask>", "</w>", "a", "b"] ['a'] = [some 6] := by
    unfold encode_word encode_word_syms
    rw [encodeLoop_nil_merges]
    decide
  have hw2 : encode_word []
      ["<pad>", "<unk>", "<s>", "</s>", "<mask>", "</w>", "a", "b"] ['b'] = [some 7] := by
    unfold encode_word encode_word_syms
    rw [encodeLoop_nil_merges]
    decide
  refine ⟨by decide, by decide, ?_, ⟨by decide, by decide⟩, by decide, by decide⟩
  show (splitSpace (normalize_text "a b").data).foldl
    (fun acc w => acc ++ encode_word []
      ["<pad>", "<unk>", "<s>", "</s>", "<mask>", "</w>", "a", "b"] w) [] = _
  rw [show splitSpace (normalize_text "a b").data = [['a'], ['b']] from rfl]
  rw [List.foldl_cons, List.foldl_cons, List.foldl_nil, hw1, hw2]
  rfl

/-- C1 (amended): the round-trip law holds for texts that are a single
word: for every model and every whitespace-free word w that does not
contain the end-of-word marker "</w>" as a substring, if no unknown
fallback is triggered (every final symbol other than a bare marker is in
the vocabulary), then decode(encode(w, add_special := false)) = w.  For
multi-word texts the law fails: the space following a word whose final
symbol sequence ends with the bare (unmerged) marker is lost, because
_encode_word drops the bare marker. -/
theorem claim_C1_theorem : ∀ (merges : List (String × String))
    (tokenList : List String) (w : List Char),
    (∀ c ∈ w, c.isWhitespace = false) →
    hasMarker w = false →
    (∀ s ∈ (encodeLoop merges (shapeOf w)).filter (fun s => decide (s ≠ eowMarker)),
      s ∈ tokenList) →
    decode tokenList (encode merges tokenList (String.mk w) false) = String.mk w := by
  intro merges tl w hw hm hv
  rw [encode_single_word merges tl w hw]
  obtain ⟨L, Z, t, hsyms, hzdata⟩ :=
    encodeLoop_last_struct merges
      (w.map (fun c => String.mk [c]) ++ [eowMarker]).length
      (w.map (fun c => String.mk [c])) eowMarker le_rfl
  have hsyms2 : encodeLoop merges (shapeOf w) = L ++ [Z] := hsyms
  have hjoin : joinS L ++ Z.data = w ++ markerL := by
    have h1 : joinS (encodeLoop merges (shapeOf w)) = joinS (shapeOf w) :=
      joinS_encodeLoop merges _
    rw [hsyms2, joinS_append] at h1
    have h2 : joinS [Z] = Z.data := by simp [joinS]
    rw [h2, joinS_shapeOf w] at h1
    exact h1
  have hLt : joinS L ++ t = w := by
    rw [hzdata, ← List.append_assoc] at hjoin
    exact List.append_cancel_right hjoin
  have hLnm : ∀ s ∈ L, s ≠ eowMarker := by
    intro s hs heq
    obtain ⟨u, v, huv⟩ := joinS_mem_decomp L s hs
    have hw2 : w = u ++ s.data ++ (v ++ t) := by
      rw [← hLt, huv]
      simp [List.append_assoc]
    have h3 := hasMarker_infix_false u s.data (v ++ t) (by rw [← hw2]; exact hm)
    rw [heq] at h3
    exact absurd h3 (by decide)
  have hfL : L.filter (fun s => decide (s ≠ eowMarker)) = L :=
    List.filter_eq_self.mpr (fun s hs => decide_eq_true (hLnm s hs))
  have hvF : ∀ s ∈ (encodeLoop merges (shapeOf w)).filter
      (fun s => decide (s ≠ eowMarker)), s ∈ tl := hv
  have hdec : decode tl (encode_word merges tl w) =
      (⟨pyStrip (pyReplaceMarker (joinS ((encodeLoop merges (shapeOf w)).filter
        (fun s => decide (s ≠ eowMarker)))))⟩ : String) :=
    decode_of_syms tl _ hvF
  rw [hdec]
  by_cases hZ : Z = eowMarker
  · have ht : t = [] := by
      have h5 := hzdata
      rw [hZ] at h5
      have hlen := congrArg List.length h5
      rw [List.length_append] at hlen
      have : t.length = 0 := by
        simp only [show (eowMarker.data : List Char) = markerL from rfl] at hlen
        omega
      exact List.eq_nil_of_length_eq_zero this
    have hjw : joinS L = w := by
      rw [ht, List.append_nil] at hLt
      exact hLt
    have hfilter : (encodeLoop merges (shapeOf w)).filter
        (fun s => decide (s ≠ eowMarker)) = L := by
      rw [hsyms2, List.filter_append, hfL]
      simp [hZ]
    rw [hfilter, hjw]
    rw [pyReplaceMarker_no_marker w hm, pyStrip_noWs w hw]
  · have hfilter : (encodeLoop merges (shapeOf w)).filter
        (fun s => decide (s ≠ eowMarker)) = L ++ [Z] := by
      rw [hsyms2, List.filter_append, hfL]
      simp [hZ]
    rw [hfilter, joinS_append]
    have h2 : joinS [Z] = Z.data := by simp [joinS]
    rw [h2, hjoin]
    rw [pyReplaceMarker_append_marker w hm, pyStrip_append_space w hw]

theorem claim_C1_witness :
    (∀ c ∈ ['a'], c.isWhitespace = false) ∧
    hasMarker ['a'] = false ∧
    (∀ s ∈ (encodeLoop [] (shapeOf ['a'])).filter (fun s => decide (s ≠ eowMarker)),
      s ∈ SPECIAL_TOKENS ++ ["</w>", "a"]) ∧
    decode (SPECIAL_TOKENS ++ ["</w>", "a"])
      (encode [] (SPECIAL_TOKENS ++ ["</w>", "a"]) (String.mk ['a']) false) =
      String.mk ['a'] :=
  ⟨by decide, by decide, by rw [encodeLoop_nil_merges]; decide,
   claim_C1_theorem [] (SPECIAL_TOKENS ++ ["</w>", "a"]) ['a'] (by decide) (by decide)
     (by rw [encodeLoop_nil_merges]; decide)⟩

end BPE
